import Mathlib

/-!
# Verification of the STOMP frame codec (`src/frame/mod.rs`, `src/frame/parser.rs`)

Shallow embedding of the codec:

* wire bytes are modelled as `List Nat` (each element a byte value);
* Rust `String` is modelled as `List Char` (a sequence of Unicode scalar
  values), with an explicit UTF-8 encoder/decoder (`utf8Encode` /
  `utf8Decode`) standing for `str::as_bytes` / `str::from_utf8`;
* Rust `HashMap<String, String>` is modelled as an association list
  `List (List Char × List Char)`; the encoder iterates it in list order
  (the `HashMap` iterates in an arbitrary order, the list order is one
  such order), and the decoder inserts with first-occurrence-wins
  semantics exactly as `HashMap::entry(..).or_insert(..)` does;
* `nom` parsers are modelled as functions `List Nat → Except (List Nat) _`,
  the `error` payload being the input slice the failing parser was given
  (`nom::error::Error::input`).  `StompFrameError::SyntaxError` stores the
  raw bytes of that slice; the Rust code stores its lossy UTF-8 display
  string (`String::from_utf8_lossy`), a presentation-only difference.
-/

/-- The 15 protocol commands, in the order they are declared in the
`stomp_command_impl!` invocation (mod.rs lines 31-49).  That order is also
the `alt` order of the generated parser. -/
inductive StompCommand
  | CONNECTED
  | MESSAGE
  | RECEIPT
  | ERROR
  | SEND
  | UNSUBSCRIBE
  | SUBSCRIBE
  | BEGIN
  | COMMIT
  | ABORT
  | NACK
  | ACK
  | DISCONNECT
  | CONNECT
  | STOMP
deriving DecidableEq, Repr

/-- Model of `impl From<StompCommand> for &str`: the canonical textual form of a
command (`stringify!` of the variant name). -/
def commandName : StompCommand → String
  | .CONNECTED => "CONNECTED"
  | .MESSAGE => "MESSAGE"
  | .RECEIPT => "RECEIPT"
  | .ERROR => "ERROR"
  | .SEND => "SEND"
  | .UNSUBSCRIBE => "UNSUBSCRIBE"
  | .SUBSCRIBE => "SUBSCRIBE"
  | .BEGIN => "BEGIN"
  | .COMMIT => "COMMIT"
  | .ABORT => "ABORT"
  | .NACK => "NACK"
  | .ACK => "ACK"
  | .DISCONNECT => "DISCONNECT"
  | .CONNECT => "CONNECT"
  | .STOMP => "STOMP"

/-- Model of `StompCommand::may_have_body` (mod.rs lines 59-61). -/
def StompCommand.may_have_body : StompCommand → Bool
  | .SEND | .MESSAGE | .ERROR => true
  | _ => false

/-- Model of `StompCommand::has_escaped_headers` (mod.rs lines 63-65). -/
def StompCommand.has_escaped_headers : StompCommand → Bool
  | .CONNECT | .CONNECTED => false
  | _ => true

/-- UTF-8 encoding of one Unicode scalar value (`char`), as a list of
byte values. -/
def utf8EncodeChar (c : Char) : List Nat :=
  let n := c.toNat
  if n < 0x80 then [n]
  else if n < 0x800 then [0xC0 + n / 64, 0x80 + n % 64]
  else if n < 0x10000 then
    [0xE0 + n / 4096, 0x80 + n / 64 % 64, 0x80 + n % 64]
  else
    [0xF0 + n / 262144, 0x80 + n / 4096 % 64, 0x80 + n / 64 % 64, 0x80 + n % 64]

/-- UTF-8 encoding of a string (`str::as_bytes` on the model level). -/
def utf8Encode : List Char → List Nat
  | [] => []
  | c :: cs => utf8EncodeChar c ++ utf8Encode cs

/-- Decoding of one UTF-8 scalar value from the head of a byte list,
returning the character and the unconsumed rest.  Implements the
per-character checks of Rust's `run_utf8_validation`: rejects continuation
bytes in leading position, overlong encodings, surrogates, values above
U+10FFFF, truncated sequences and malformed continuation bytes. -/
def utf8DecodeOne : List Nat → Option (Char × List Nat)
  | [] => none
  | b :: bs =>
    if b < 0x80 then some (Char.ofNat b, bs)
    else if b < 0xC2 then none
    else if b < 0xE0 then
      match bs with
      | b1 :: bs1 =>
        if 0x80 ≤ b1 ∧ b1 < 0xC0 then
          some (Char.ofNat ((b - 0xC0) * 64 + (b1 - 0x80)), bs1)
        else none
      | [] => none
    else if b < 0xF0 then
      match bs with
      | b1 :: b2 :: bs2 =>
        if (if b = 0xE0 then 0xA0 else 0x80) ≤ b1 ∧
            b1 < (if b = 0xED then 0xA0 else 0xC0) ∧
            0x80 ≤ b2 ∧ b2 < 0xC0 then
          some (Char.ofNat ((b - 0xE0) * 4096 + (b1 - 0x80) * 64 + (b2 - 0x80)), bs2)
        else none
      | _ => none
    else if b < 0xF5 then
      match bs with
      | b1 :: b2 :: b3 :: bs3 =>
        if (if b = 0xF0 then 0x90 else 0x80) ≤ b1 ∧
            b1 < (if b = 0xF4 then 0x90 else 0xC0) ∧
            0x80 ≤ b2 ∧ b2 < 0xC0 ∧ 0x80 ≤ b3 ∧ b3 < 0xC0 then
          some (Char.ofNat ((b - 0xF0) * 262144 + (b1 - 0x80) * 4096 +
            (b2 - 0x80) * 64 + (b3 - 0x80)), bs3)
        else none
      | _ => none
    else none

/-- The scalar-by-scalar decoding loop.  The fuel argument (instantiated
with the input length, an upper bound on the number of scalars since each
consumes at least one byte) makes the recursion structural; the
fuel-exhaustion branch is unreachable at that instantiation. -/
def utf8DecodeGo : Nat → List Nat → Option (List Char)
  | _, [] => some []
  | 0, _ :: _ => none
  | fuel + 1, b :: bs =>
    match utf8DecodeOne (b :: bs) with
    | none => none
    | some (c, rest) => (utf8DecodeGo fuel rest).map (c :: ·)

/-- Strict UTF-8 decoding of a whole byte list (`std::str::from_utf8`):
`some` exactly on valid UTF-8. -/
def utf8Decode (input : List Nat) : Option (List Char) :=
  utf8DecodeGo input.length input

/-- Headers map: Rust `HashMap<String, String>` as an association list
with pairwise-distinct keys maintained by first-wins insertion. -/
abbrev StompHeaders := List (List Char × List Char)

/-- Model of `HashMap::get` on the association-list model. -/
def lookupHeader (hs : StompHeaders) (k : List Char) : Option (List Char) :=
  (hs.find? (fun e => e.1 == k)).map (·.2)

/-- Model of `HashMap::entry(key).or_insert(value)`: insert only when the key is
absent (collect_headers, parser.rs line 87). -/
def orInsert (hs : StompHeaders) (k v : List Char) : StompHeaders :=
  if (hs.find? (fun e => e.1 == k)).isSome then hs else hs ++ [(k, v)]

/-- Model of `const CONTENT_LENGTH: &str = "content-length"` (mod.rs line 166). -/
def CONTENT_LENGTH : List Char := "content-length".data

/-- Model of `StompFrameError` (mod.rs lines 75-83).  `EncodingError` drops the
wrapped `Utf8Error` detail; `HeaderError` keeps both strings;
`SyntaxError` keeps the raw bytes whose lossy decoding the Rust enum
stores (for error payloads that originate from a `String`, the stored
bytes are that string's UTF-8 encoding). -/
inductive StompFrameError
  | EncodingError
  | HeaderError (name : List Char) (value : List Char)
  | SyntaxError (at_ : List Nat)
deriving DecidableEq, Repr

/-- Model of `StompFrame` (mod.rs lines 68-73). -/
structure StompFrame where
  cmd : StompCommand
  headers : StompHeaders
  body : Option (List Nat)
deriving DecidableEq, Repr

/-- The body of `SyntaxError(format!("frame type {cmd:?} must not have a
body"))` in `StompFrame::new`; `{cmd:?}` debug-prints the variant name. -/
def newBodyErrMsg (cmd : StompCommand) : List Char :=
  ("frame type " ++ commandName cmd ++ " must not have a body").data

/-- Model of `StompFrame::new` (mod.rs lines 86-102): normalize an empty body to
`None`, reject a present body when the command may not have one. -/
def StompFrame.new (cmd : StompCommand) (headers : StompHeaders)
    (body : List Nat) : Except StompFrameError StompFrame :=
  let body' : Option (List Nat) := if body.isEmpty then none else some body
  if !cmd.may_have_body && body'.isSome then
    .error (.SyntaxError (utf8Encode (newBodyErrMsg cmd)))
  else
    .ok { cmd := cmd, headers := headers, body := body' }

/-- Model of `escape_header` (mod.rs lines 131-143): one left-to-right pass,
replacing CR, LF, `:` and `\` by their two-character escapes. -/
def escape_header : List Char → List Char
  | [] => []
  | '\r' :: rest => '\\' :: 'r' :: escape_header rest
  | '\n' :: rest => '\\' :: 'n' :: escape_header rest
  | ':' :: rest => '\\' :: 'c' :: escape_header rest
  | '\\' :: rest => '\\' :: '\\' :: escape_header rest
  | c :: rest => c :: escape_header rest

/-- Model of `impl From<StompFrame> for Vec<u8>` (mod.rs lines 105-128): the
serializer, accumulating into a byte vector.  The header fold stands for
the `for (key, value) in value.headers` loop (list order standing for the
`HashMap` iteration order). -/
def frame_to_bytes (value : StompFrame) : List Nat :=
  let esc := if value.cmd.has_escaped_headers then escape_header else id
  let serialized := utf8Encode (commandName value.cmd).data ++ [10]
  let serialized := value.headers.foldl
    (fun acc kv => acc ++ utf8Encode (esc kv.1) ++ [58] ++ utf8Encode (esc kv.2) ++ [10])
    serialized
  let serialized := serialized ++ [10]
  let serialized := serialized ++ (match value.body with
    | some body => body
    | none => [])
  serialized ++ [0]

/-- The scan loop of `unescape_header` (parser.rs lines 98-109): `none`
models the `return Err(..)` taken when a `\` is followed by anything other
than `\`, `r`, `n`, `c` — or by nothing. -/
def unescapeScan : List Char → Option (List Char)
  | [] => some []
  | '\\' :: '\\' :: rest => (unescapeScan rest).map ('\\' :: ·)
  | '\\' :: 'r' :: rest => (unescapeScan rest).map ('\r' :: ·)
  | '\\' :: 'n' :: rest => (unescapeScan rest).map ('\n' :: ·)
  | '\\' :: 'c' :: rest => (unescapeScan rest).map (':' :: ·)
  | '\\' :: _ => none
  | c :: rest => (unescapeScan rest).map (c :: ·)

/-- Model of `unescape_header` (parser.rs lines 92-114): identity for commands whose
headers are not escaped, otherwise the scan; a failed scan yields
`SyntaxError(header)` carrying the original un-decoded header string. -/
def unescape_header (header : List Char) (cmd : StompCommand) :
    Except StompFrameError (List Char) :=
  if cmd.has_escaped_headers then
    match unescapeScan header with
    | some unescaped => .ok unescaped
    | none => .error (.SyntaxError (utf8Encode header))
  else
    .ok header

/-! ## The `nom` parser model (parser.rs)

Each parser is a function `List Nat → Except (List Nat) (α × List Nat)`
returning the parsed value and the remaining input, or the input slice at
the point of failure (the `nom::error::Error::input` field). -/

/-- Model of `nom::bytes::complete::tag` specialized to byte tokens: succeed and
consume exactly when the token is an initial segment of the input. -/
def tagBytes (tok : List Nat) (input : List Nat) : Option (List Nat) :=
  match tok, input with
  | [], rest => some rest
  | _ :: _, [] => none
  | t :: ts, b :: bs => if b = t then tagBytes ts bs else none

/-- The wire token of a command: the UTF-8 bytes of its canonical name. -/
def cmdToken (c : StompCommand) : List Nat :=
  utf8Encode (commandName c).data

/-- The `alt` order of `stomp_command_parse_impl!`: the declaration order
of `stomp_command_impl!` (mod.rs lines 31-49). -/
def cmdAltOrder : List StompCommand :=
  [.CONNECTED, .MESSAGE, .RECEIPT, .ERROR, .SEND, .UNSUBSCRIBE, .SUBSCRIBE,
   .BEGIN, .COMMIT, .ABORT, .NACK, .ACK, .DISCONNECT, .CONNECT, .STOMP]

/-- Model of `alt((value(CONNECTED, tag("CONNECTED")), ...))`: try each token in
order; when all fail, the error is reported at the start of the input
(every `tag` fails without consuming, and `alt` keeps the last error). -/
def altCmds : List StompCommand → List Nat → Except (List Nat) (StompCommand × List Nat)
  | [], input => .error input
  | c :: cs, input =>
    match tagBytes (cmdToken c) input with
    | some rest => .ok (c, rest)
    | none => altCmds cs input

/-- Model of `StompCommand::parse` (parser.rs lines 20-24). -/
def commandParse (input : List Nat) : Except (List Nat) (StompCommand × List Nat) :=
  altCmds cmdAltOrder input

/-- Model of `nom::character::complete::line_ending`: `\n` or `\r\n`. -/
def lineEnding : List Nat → Except (List Nat) (List Nat)
  | 10 :: rest => .ok rest
  | 13 :: 10 :: rest => .ok rest
  | other => .error other

/-- Model of `is_header_octet` (parser.rs lines 75-77). -/
def is_header_octet (oct : Nat) : Bool :=
  !(oct = 13 || oct = 10 || oct = 58)

/-- Model of `parse_header` (parser.rs lines 63-73):
`terminated(separated_pair(take_while1(is_header_octet), char(':'),
take_while(is_header_octet)), line_ending)`. -/
def parse_header (input : List Nat) :
    Except (List Nat) ((List Nat × List Nat) × List Nat) :=
  let key := input.takeWhile is_header_octet
  if key.isEmpty then .error input
  else
    match input.drop key.length with
    | 58 :: r1 =>
      let val := r1.takeWhile is_header_octet
      match lineEnding (r1.drop val.length) with
      | .ok rest => .ok ((key, val), rest)
      | .error e => .error e
    | other => .error other

/-- Model of `many0(parse_header)`: iterate `parse_header` until it fails, which
never fails itself.  The fuel argument (instantiated with the input
length, an upper bound on the iteration count since every header line is
at least three bytes) makes the recursion structural. -/
def many0Headers : Nat → List Nat → List (List Nat × List Nat) × List Nat
  | 0, input => ([], input)
  | fuel + 1, input =>
    match parse_header input with
    | .error _ => ([], input)
    | .ok (pair, rest) =>
      let (pairs, rest') := many0Headers fuel rest
      (pair :: pairs, rest')

/-- The tuple parser at the head of `parse_frame` (parser.rs lines 42-47):
`(terminated(StompCommand::parse, line_ending),
terminated(many0(parse_header), line_ending))`. -/
def parse_preamble (input : List Nat) :
    Except (List Nat) ((StompCommand × List (List Nat × List Nat)) × List Nat) :=
  match commandParse input with
  | .error e => .error e
  | .ok (cmd, r1) =>
    match lineEnding r1 with
    | .error e => .error e
    | .ok r2 =>
      let (pairs, r3) := many0Headers r2.length r2
      match lineEnding r3 with
      | .error e => .error e
      | .ok rest => .ok ((cmd, pairs), rest)

/-- Decoding of one raw header pair inside `collect_headers` (parser.rs
lines 85-86): UTF-8 validation of key and value, then unescaping. -/
def decodePair (cmd : StompCommand) (pair : List Nat × List Nat) :
    Except StompFrameError (List Char × List Char) :=
  match utf8Decode pair.1 with
  | none => .error .EncodingError
  | some kChars =>
    match unescape_header kChars cmd with
    | .error e => .error e
    | .ok key =>
      match utf8Decode pair.2 with
      | none => .error .EncodingError
      | some vChars =>
        match unescape_header vChars cmd with
        | .error e => .error e
        | .ok value => .ok (key, value)

/-- The loop body of `collect_headers` (parser.rs lines 84-88). -/
def collectHeadersGo (cmd : StompCommand) :
    List (List Nat × List Nat) → StompHeaders → Except StompFrameError StompHeaders
  | [], acc => .ok acc
  | pair :: rest, acc =>
    match decodePair cmd pair with
    | .error e => .error e
    | .ok (key, value) => collectHeadersGo cmd rest (orInsert acc key value)

/-- Model of `collect_headers` (parser.rs lines 79-90). -/
def collect_headers (cmd : StompCommand) (header_pairs : List (List Nat × List Nat)) :
    Except StompFrameError StompHeaders :=
  collectHeadersGo cmd header_pairs []

/-- Model of `str::parse::<usize>` on the digits after an optional sign: `none`
unless the text is one or more ASCII digits whose value fits in `usize`
(64-bit). -/
def parseDigits (s : List Char) : Option Nat :=
  if s.isEmpty then none
  else if s.all (·.isDigit) then
    let v := s.foldl (fun acc c => acc * 10 + (c.toNat - 48)) 0
    if v < 2 ^ 64 then some v else none
  else none

/-- Model of `str::parse::<usize>` (used at parser.rs line 50): an optional leading
`+`, then one or more ASCII digits, rejecting overflow past `usize::MAX`
(the intermediate checked arithmetic overflows exactly when the total
value does). -/
def parseUsize : List Char → Option Nat
  | '+' :: rest => parseDigits rest
  | s => parseDigits s

/-- Model of `many0(line_ending)` after the frame terminator: consume any run of
`\n` / `\r\n`. -/
def dropLineEndings : List Nat → List Nat
  | 10 :: rest => dropLineEndings rest
  | 13 :: 10 :: rest => dropLineEndings rest
  | other => other

/-- Model of `parse_body_with_len` (parser.rs lines 116-118):
`terminated(take(body_len), (char('\0'), many0(line_ending)))`. -/
def parse_body_with_len (input : List Nat) (body_len : Nat) :
    Except (List Nat) (List Nat × List Nat) :=
  if input.length < body_len then .error input
  else
    match input.drop body_len with
    | 0 :: r => .ok (input.take body_len, dropLineEndings r)
    | other => .error other

/-- Model of `parse_body` (parser.rs lines 120-122):
`terminated(take_while(|c| c != b'\0'), (char('\0'), many0(line_ending)))`. -/
def parse_body (input : List Nat) : Except (List Nat) (List Nat × List Nat) :=
  let body := input.takeWhile (fun c => !(c = 0))
  match input.drop body.length with
  | 0 :: r => .ok (body, dropLineEndings r)
  | other => .error other

/-- Model of `parse_frame` (parser.rs lines 41-61). -/
def parse_frame (input : List Nat) :
    Except StompFrameError (StompCommand × StompHeaders × List Nat) :=
  match parse_preamble input with
  | .error e => .error (.SyntaxError e)
  | .ok ((cmd, header_pairs), rest) =>
    match collect_headers cmd header_pairs with
    | .error e => .error e
    | .ok headers =>
      match lookupHeader headers CONTENT_LENGTH with
      | some content_len =>
        match parseUsize content_len with
        | none => .error (.HeaderError CONTENT_LENGTH content_len)
        | some body_len =>
          match parse_body_with_len rest body_len with
          | .error e => .error (.SyntaxError e)
          | .ok (body, _) => .ok (cmd, headers, body)
      | none =>
        match parse_body rest with
        | .error e => .error (.SyntaxError e)
        | .ok (body, _) => .ok (cmd, headers, body)

/-- Model of `impl TryFrom<&[u8]> for StompFrame` (parser.rs lines 31-37):
`parse_frame(input).and_then(|(cmd, headers, body)| StompFrame::new(..))`. -/
def try_from (input : List Nat) : Except StompFrameError StompFrame :=
  match parse_frame input with
  | .error e => .error e
  | .ok (cmd, headers, body) => StompFrame.new cmd headers body

-- Decidable equality on `Except`, used to evaluate codec runs on
-- concrete inputs.
deriving instance DecidableEq for Except

section UTF8Lemmas

/-! ## UTF-8 round-trip lemmas -/
theorem char_valid_nat (c : Char) : c.toNat < 0xD800 ∨ (0xDFFF < c.toNat ∧ c.toNat < 0x110000) := by
  have h := c.valid
  unfold UInt32.isValidChar Nat.isValidChar at h
  exact h

theorem utf8DecodeOne_encodeChar (c : Char) (bs : List Nat) :
    utf8DecodeOne (utf8EncodeChar c ++ bs) = some (c, bs) := by
  have hv := char_valid_nat c
  simp only [utf8EncodeChar]
  split_ifs with h1 h2 h3
  · simp only [List.cons_append, List.nil_append, utf8DecodeOne, if_pos h1]
    rw [Char.ofNat_toNat]
  · simp only [List.cons_append, List.nil_append, utf8DecodeOne]
    rw [if_neg (by omega), if_neg (by omega), if_pos (by omega), if_pos (by omega)]
    have h : (0xC0 + c.toNat / 64 - 0xC0) * 64 + (0x80 + c.toNat % 64 - 0x80) = c.toNat := by omega
    rw [h, Char.ofNat_toNat]
  · simp only [List.cons_append, List.nil_append, utf8DecodeOne]
    rw [if_neg (by omega), if_neg (by omega), if_neg (by omega), if_pos (by omega)]
    rw [if_pos (by refine ⟨?_, ?_, by omega, by omega⟩ <;> split_ifs <;> omega)]
    have h : (0xE0 + c.toNat / 4096 - 0xE0) * 4096 + (0x80 + c.toNat / 64 % 64 - 0x80) * 64 +
        (0x80 + c.toNat % 64 - 0x80) = c.toNat := by omega
    rw [h, Char.ofNat_toNat]
  · simp only [List.cons_append, List.nil_append, utf8DecodeOne]
    rw [if_neg (by omega), if_neg (by omega), if_neg (by omega), if_neg (by omega),
      if_pos (by omega)]
    rw [if_pos (by refine ⟨?_, ?_, by omega, by omega, by omega, by omega⟩ <;>
      split_ifs <;> omega)]
    have h : (0xF0 + c.toNat / 262144 - 0xF0) * 262144 + (0x80 + c.toNat / 4096 % 64 - 0x80) * 4096 +
        (0x80 + c.toNat / 64 % 64 - 0x80) * 64 + (0x80 + c.toNat % 64 - 0x80) = c.toNat := by omega
    rw [h, Char.ofNat_toNat]



theorem utf8DecodeOne_shrinks (input : List Nat) (c : Char) (rest : List Nat)
    (h : utf8DecodeOne input = some (c, rest)) : rest.length < input.length := by
  rcases input with _ | ⟨b, _ | ⟨b1, _ | ⟨b2, _ | ⟨b3, bs⟩⟩⟩⟩ <;>
    simp only [utf8DecodeOne] at h <;>
    (try split_ifs at h) <;>
    simp_all <;>
    omega

theorem utf8EncodeChar_cons (c : Char) : ∃ b rest, utf8EncodeChar c = b :: rest := by
  simp only [utf8EncodeChar]
  split_ifs <;> exact ⟨_, _, rfl⟩

theorem utf8DecodeGo_fuel : ∀ (n : Nat), ∀ (input : List Nat), input.length ≤ n →
    ∀ f, input.length ≤ f → utf8DecodeGo f input = utf8DecodeGo input.length input := by
  intro n
  induction n with
  | zero =>
    intro input hlen f hf
    rcases input with _ | ⟨b, bs⟩
    · cases f <;> rfl
    · simp at hlen
  | succ n ih =>
    intro input hlen f hf
    rcases input with _ | ⟨b, bs⟩
    · cases f <;> rfl
    · rcases f with _ | f'
      · simp at hf
      · simp only [List.length_cons] at hlen hf
        show utf8DecodeGo (f' + 1) (b :: bs) = utf8DecodeGo (bs.length + 1) (b :: bs)
        simp only [utf8DecodeGo]
        cases hone : utf8DecodeOne (b :: bs) with
        | none => rfl
        | some pr =>
          obtain ⟨c, rest⟩ := pr
          have hsh := utf8DecodeOne_shrinks _ _ _ hone
          simp only [List.length_cons] at hsh
          dsimp only
          rw [ih rest (by omega) f' (by omega), ih rest (by omega) bs.length (by omega)]

theorem utf8Decode_encode_append (s : List Char) (bs : List Nat) :
    utf8Decode (utf8Encode s ++ bs) = (utf8Decode bs).map (s ++ ·) := by
  induction s with
  | nil =>
    simp only [utf8Encode, List.nil_append, List.nil_append]
    cases utf8Decode bs <;> simp
  | cons c s ih =>
    obtain ⟨b0, enc0, henc⟩ := utf8EncodeChar_cons c
    have hone : utf8DecodeOne (utf8EncodeChar c ++ (utf8Encode s ++ bs)) =
        some (c, utf8Encode s ++ bs) := utf8DecodeOne_encodeChar c _
    have hassoc : utf8Encode (c :: s) ++ bs = utf8EncodeChar c ++ (utf8Encode s ++ bs) := by
      simp [utf8Encode]
    rw [utf8Decode, hassoc, henc]
    simp only [List.cons_append, List.length_cons, utf8DecodeGo, List.append_eq]
    rw [show b0 :: (enc0 ++ (utf8Encode s ++ bs)) = utf8EncodeChar c ++ (utf8Encode s ++ bs) by
      rw [henc]; simp]
    rw [hone]
    dsimp only
    rw [utf8DecodeGo_fuel (enc0 ++ (utf8Encode s ++ bs)).length _ (by simp) _ (by simp [henc])]
    rw [show utf8DecodeGo (utf8Encode s ++ bs).length (utf8Encode s ++ bs) =
      utf8Decode (utf8Encode s ++ bs) from rfl, ih]
    cases utf8Decode bs <;> simp

theorem utf8Decode_encode (s : List Char) : utf8Decode (utf8Encode s) = some s := by
  have h := utf8Decode_encode_append s []
  simpa [utf8Decode, utf8DecodeGo] using h

end UTF8Lemmas

section EscapeLemmas

/-! ## Escaping and byte-level header lemmas -/

theorem unescapeScan_escape (s : List Char) : unescapeScan (escape_header s) = some s := by
  induction s with
  | nil => rfl
  | cons c rest ih =>
    by_cases h1 : c = '\r'
    · subst h1; simp [escape_header, unescapeScan, ih]
    by_cases h2 : c = '\n'
    · subst h2; simp [escape_header, unescapeScan, ih]
    by_cases h3 : c = ':'
    · subst h3; simp [escape_header, unescapeScan, ih]
    by_cases h4 : c = '\\'
    · subst h4; simp [escape_header, unescapeScan, ih]
    · simp [escape_header, unescapeScan, h1, h2, h3, h4, ih]

theorem escape_header_no_specials (s : List Char) :
    ∀ c ∈ escape_header s, c ≠ '\r' ∧ c ≠ '\n' ∧ c ≠ ':' := by
  induction s with
  | nil => simp [escape_header]
  | cons c rest ih =>
    by_cases h1 : c = '\r'
    · subst h1; simp [escape_header]; exact fun c hc => ih c hc
    by_cases h2 : c = '\n'
    · subst h2; simp [escape_header]; exact fun c hc => ih c hc
    by_cases h3 : c = ':'
    · subst h3; simp [escape_header]; exact fun c hc => ih c hc
    by_cases h4 : c = '\\'
    · subst h4; simp [escape_header]; exact fun c hc => ih c hc
    · simp [escape_header, h1, h2, h3, h4]
      exact fun c hc => ih c hc

theorem escape_header_eq_nil (s : List Char) : escape_header s = [] ↔ s = [] := by
  cases s with
  | nil => simp [escape_header]
  | cons c rest =>
    simp only [List.cons_ne_nil, iff_false]
    by_cases h1 : c = '\r'
    · subst h1; simp [escape_header]
    by_cases h2 : c = '\n'
    · subst h2; simp [escape_header]
    by_cases h3 : c = ':'
    · subst h3; simp [escape_header]
    by_cases h4 : c = '\\'
    · subst h4; simp [escape_header]
    · simp [escape_header, h1, h2, h3, h4]

theorem utf8Encode_append (s t : List Char) :
    utf8Encode (s ++ t) = utf8Encode s ++ utf8Encode t := by
  induction s with
  | nil => simp [utf8Encode]
  | cons c rest ih => simp [utf8Encode, ih]

theorem utf8Encode_eq_nil (s : List Char) : utf8Encode s = [] ↔ s = [] := by
  cases s with
  | nil => simp [utf8Encode]
  | cons c rest =>
    obtain ⟨b, e, he⟩ := utf8EncodeChar_cons c
    simp [utf8Encode, he]

theorem utf8EncodeChar_mem_ranges (c : Char) (b : Nat) (hb : b ∈ utf8EncodeChar c) :
    (c.toNat < 0x80 ∧ b = c.toNat) ∨ 0x80 ≤ b := by
  simp only [utf8EncodeChar] at hb
  split_ifs at hb <;> simp at hb <;> omega

theorem char_eq_of_toNat_eq (c d : Char) (h : c.toNat = d.toNat) : c = d := by
  have hc := Char.ofNat_toNat c
  have hd := Char.ofNat_toNat d
  rw [h] at hc
  rw [← hc, hd]

theorem utf8EncodeChar_header_octet (c : Char) (h1 : c ≠ '\r') (h2 : c ≠ '\n') (h3 : c ≠ ':')
    (b : Nat) (hb : b ∈ utf8EncodeChar c) : is_header_octet b = true := by
  rcases utf8EncodeChar_mem_ranges c b hb with ⟨hlow, rfl⟩ | hhigh
  · have e1 : c.toNat ≠ 13 := fun he => h1 (char_eq_of_toNat_eq c '\r' he)
    have e2 : c.toNat ≠ 10 := fun he => h2 (char_eq_of_toNat_eq c '\n' he)
    have e3 : c.toNat ≠ 58 := fun he => h3 (char_eq_of_toNat_eq c ':' he)
    simp [is_header_octet, e1, e2, e3]
  · simp [is_header_octet]
    omega

theorem utf8Encode_header_octets (s : List Char)
    (h : ∀ c ∈ s, c ≠ '\r' ∧ c ≠ '\n' ∧ c ≠ ':') :
    ∀ b ∈ utf8Encode s, is_header_octet b = true := by
  induction s with
  | nil => simp [utf8Encode]
  | cons c rest ih =>
    intro b hb
    simp only [utf8Encode, List.mem_append] at hb
    rcases hb with hb | hb
    · obtain ⟨hc1, hc2, hc3⟩ := h c (by simp)
      exact utf8EncodeChar_header_octet c hc1 hc2 hc3 b hb
    · exact ih (fun c hc => h c (by simp [hc])) b hb

theorem takeWhile_append_stop (p : Nat → Bool) (xs : List Nat) (y : Nat) (ys : List Nat)
    (h : ∀ x ∈ xs, p x = true) (hy : p y = false) :
    (xs ++ y :: ys).takeWhile p = xs := by
  induction xs with
  | nil => simp [List.takeWhile, hy]
  | cons x xs ih =>
    simp only [List.cons_append, List.takeWhile, h x (by simp), List.append_eq]
    rw [ih (fun a ha => h a (by simp [ha]))]

end EscapeLemmas

section ParserLemmas

/-! ## Decode-of-encode lemmas -/

/-- The wire token of each command, followed by a line-feed byte, parses
back to that command, leaving the line feed unconsumed: the alt order puts
CONNECTED before its prefix CONNECT, and no other token is a prefix of a
token byte followed by the terminator. -/
theorem commandParse_token (cmd : StompCommand) (rest : List Nat) :
    commandParse (cmdToken cmd ++ 10 :: rest) = .ok (cmd, 10 :: rest) := by
  have t0 : cmdToken .CONNECTED = [67, 79, 78, 78, 69, 67, 84, 69, 68] := by decide
  have t1 : cmdToken .MESSAGE = [77, 69, 83, 83, 65, 71, 69] := by decide
  have t2 : cmdToken .RECEIPT = [82, 69, 67, 69, 73, 80, 84] := by decide
  have t3 : cmdToken .ERROR = [69, 82, 82, 79, 82] := by decide
  have t4 : cmdToken .SEND = [83, 69, 78, 68] := by decide
  have t5 : cmdToken .UNSUBSCRIBE = [85, 78, 83, 85, 66, 83, 67, 82, 73, 66, 69] := by decide
  have t6 : cmdToken .SUBSCRIBE = [83, 85, 66, 83, 67, 82, 73, 66, 69] := by decide
  have t7 : cmdToken .BEGIN = [66, 69, 71, 73, 78] := by decide
  have t8 : cmdToken .COMMIT = [67, 79, 77, 77, 73, 84] := by decide
  have t9 : cmdToken .ABORT = [65, 66, 79, 82, 84] := by decide
  have t10 : cmdToken .NACK = [78, 65, 67, 75] := by decide
  have t11 : cmdToken .ACK = [65, 67, 75] := by decide
  have t12 : cmdToken .DISCONNECT = [68, 73, 83, 67, 79, 78, 78, 69, 67, 84] := by decide
  have t13 : cmdToken .CONNECT = [67, 79, 78, 78, 69, 67, 84] := by decide
  have t14 : cmdToken .STOMP = [83, 84, 79, 77, 80] := by decide
  cases cmd <;>
    simp [commandParse, cmdAltOrder, altCmds, tagBytes, utf8Encode,
      t0, t1, t2, t3, t4, t5, t6, t7, t8, t9, t10, t11, t12, t13, t14]

theorem parse_header_bytes (key val rest : List Nat) (hk : key ≠ [])
    (hko : ∀ b ∈ key, is_header_octet b = true)
    (hvo : ∀ b ∈ val, is_header_octet b = true) :
    parse_header (key ++ 58 :: (val ++ 10 :: rest)) = .ok ((key, val), rest) := by
  have hsep : is_header_octet 58 = false := by decide
  have hlf : is_header_octet 10 = false := by decide
  have htake : (key ++ 58 :: (val ++ 10 :: rest)).takeWhile is_header_octet = key :=
    takeWhile_append_stop _ key 58 _ hko hsep
  have htakev : (val ++ 10 :: rest).takeWhile is_header_octet = val :=
    takeWhile_append_stop _ val 10 rest hvo hlf
  simp only [parse_header, htake, htakev, List.drop_left, lineEnding]
  simp [hk]

/-- Each encoded header line is nonempty, so the header count bounds the
length of the encoded header block. -/
theorem headerBlock_length_ge (ps : List (List Nat × List Nat)) :
    ps.length ≤ ((ps.map fun p => p.1 ++ 58 :: (p.2 ++ [10])).flatten).length := by
  induction ps with
  | nil => simp
  | cons p ps ih =>
    simp only [List.map_cons, List.flatten_cons, List.length_append, List.length_cons]
    omega

theorem many0Headers_block (ps : List (List Nat × List Nat)) (t : List Nat) :
    ∀ f, ps.length ≤ f →
    (∀ p ∈ ps, p.1 ≠ [] ∧ (∀ b ∈ p.1, is_header_octet b = true) ∧
      (∀ b ∈ p.2, is_header_octet b = true)) →
    many0Headers f ((ps.map fun p => p.1 ++ 58 :: (p.2 ++ [10])).flatten ++ 10 :: t) =
      (ps, 10 :: t) := by
  induction ps with
  | nil =>
    intro f _ _
    have hfail : parse_header (10 :: t) = .error (10 :: t) := by
      simp [parse_header, List.takeWhile, is_header_octet]
    cases f with
    | zero => simp [many0Headers]
    | succ f => simp [many0Headers, hfail]
  | cons p ps ih =>
    intro f hf hcond
    obtain ⟨hk, hko, hvo⟩ := hcond p (by simp)
    rcases f with _ | f'
    · simp at hf
    · have harr : (((p :: ps).map fun p => p.1 ++ 58 :: (p.2 ++ [10])).flatten ++ 10 :: t) =
          p.1 ++ 58 :: (p.2 ++ 10 :: ((ps.map fun p => p.1 ++ 58 :: (p.2 ++ [10])).flatten ++ 10 :: t)) := by
        simp
      rw [harr]
      have hph := parse_header_bytes p.1 p.2
        ((ps.map fun p => p.1 ++ 58 :: (p.2 ++ [10])).flatten ++ 10 :: t) hk hko hvo
      simp only [many0Headers, hph]
      rw [ih f' (by simp at hf; omega) (fun q hq => hcond q (by simp [hq]))]

/-- The escape function the serializer selects for a command. -/
def escOf (cmd : StompCommand) : List Char → List Char :=
  if cmd.has_escaped_headers then escape_header else id

theorem decodePair_encoded (cmd : StompCommand) (kv : List Char × List Char) :
    decodePair cmd (utf8Encode (escOf cmd kv.1), utf8Encode (escOf cmd kv.2)) = .ok kv := by
  by_cases h : cmd.has_escaped_headers
  · simp only [decodePair, escOf, h, if_pos, utf8Decode_encode, unescape_header,
      unescapeScan_escape]
  · simp only [escOf, if_neg h, id]
    simp only [decodePair, utf8Decode_encode, unescape_header, h, Bool.false_eq_true,
      if_false]

theorem collectHeadersGo_encoded (cmd : StompCommand) (hs : StompHeaders) :
    ∀ acc : StompHeaders, ((acc ++ hs).map Prod.fst).Nodup →
    collectHeadersGo cmd (hs.map fun kv => (utf8Encode (escOf cmd kv.1), utf8Encode (escOf cmd kv.2))) acc =
      .ok (acc ++ hs) := by
  induction hs with
  | nil => intro acc _; simp [collectHeadersGo]
  | cons kv hs ih =>
    intro acc hnodup
    simp only [List.map_cons, collectHeadersGo, decodePair_encoded cmd kv]
    have hknotin : kv.1 ∉ acc.map Prod.fst := by
      simp only [List.map_append, List.map_cons] at hnodup
      intro hmem
      have hdisj := (List.nodup_append.mp hnodup).2.2
      exact hdisj hmem (by simp)
    have hfind : acc.find? (fun e => e.1 == kv.1) = none := by
      rw [List.find?_eq_none]
      intro x hx
      simp only [beq_iff_eq]
      intro heq
      exact hknotin (by rw [← heq]; exact List.mem_map_of_mem Prod.fst hx)
    have horx : orInsert acc kv.1 kv.2 = acc ++ [kv] := by
      simp [orInsert, hfind]
    rw [horx, ih (acc ++ [kv]) (by simpa using hnodup)]
    simp

theorem lookupHeader_none (hs : StompHeaders) (k : List Char)
    (h : ∀ kv ∈ hs, kv.1 ≠ k) : lookupHeader hs k = none := by
  have : hs.find? (fun e => e.1 == k) = none := by
    rw [List.find?_eq_none]
    intro x hx
    simp only [beq_iff_eq]
    exact h x hx
  simp [lookupHeader, this]

theorem parse_body_sentinel (body : List Nat) (h0 : ∀ b ∈ body, ¬b = 0) :
    parse_body (body ++ [0]) = .ok (body, []) := by
  have htake : (body ++ 0 :: []).takeWhile (fun c => !(c = 0)) = body :=
    takeWhile_append_stop _ body 0 [] (fun x hx => by simp [h0 x hx]) (by simp)
  simp only [parse_body]
  rw [show body ++ [0] = body ++ 0 :: [] from rfl, htake, List.drop_left]
  rfl

theorem foldl_headers_flatten (hs : StompHeaders) (esc : List Char → List Char) :
    ∀ init : List Nat,
    hs.foldl (fun acc kv => acc ++ utf8Encode (esc kv.1) ++ [58] ++ utf8Encode (esc kv.2) ++ [10]) init
      = init ++ (hs.map fun kv => utf8Encode (esc kv.1) ++ 58 :: (utf8Encode (esc kv.2) ++ [10])).flatten := by
  induction hs with
  | nil => intro init; simp
  | cons kv hs ih =>
    intro init
    simp only [List.foldl_cons, List.map_cons, List.flatten_cons, ih]
    simp

/-- The serializer output, rearranged into the shape consumed by the
parsing lemmas: command token, line feed, header block, blank line, body,
terminal NUL. -/
theorem frame_to_bytes_closed (f : StompFrame) :
    frame_to_bytes f = cmdToken f.cmd ++ 10 ::
      ((((f.headers.map fun kv => (utf8Encode (escOf f.cmd kv.1), utf8Encode (escOf f.cmd kv.2))).map
          fun p => p.1 ++ 58 :: (p.2 ++ [10])).flatten) ++ 10 ::
        ((match f.body with | some b => b | none => []) ++ [0])) := by
  simp only [frame_to_bytes, cmdToken, escOf]
  rw [foldl_headers_flatten]
  simp [List.map_map, Function.comp_def]

theorem escOf_ne_nil (cmd : StompCommand) (s : List Char) (h : s ≠ []) : escOf cmd s ≠ [] := by
  unfold escOf
  split_ifs
  · rw [Ne, escape_header_eq_nil]; exact h
  · exact h

theorem escOf_no_specials (cmd : StompCommand) (s : List Char)
    (h : cmd.has_escaped_headers = false → ∀ c ∈ s, c ≠ '\r' ∧ c ≠ '\n' ∧ c ≠ ':') :
    ∀ c ∈ escOf cmd s, c ≠ '\r' ∧ c ≠ '\n' ∧ c ≠ ':' := by
  unfold escOf
  split_ifs with hesc
  · exact escape_header_no_specials s
  · exact h (by simp [Bool.not_eq_true] at hesc; exact hesc)

theorem parse_frame_encoded (cmd : StompCommand) (hdrs : StompHeaders) (bodyB : List Nat)
    (hkeys : ∀ kv ∈ hdrs, kv.1 ≠ [])
    (hnodup : (hdrs.map Prod.fst).Nodup)
    (hnocl : ∀ kv ∈ hdrs, kv.1 ≠ CONTENT_LENGTH)
    (hplain : cmd.has_escaped_headers = false →
      ∀ kv ∈ hdrs, (∀ c ∈ kv.1, c ≠ '\r' ∧ c ≠ '\n' ∧ c ≠ ':') ∧
        (∀ c ∈ kv.2, c ≠ '\r' ∧ c ≠ '\n' ∧ c ≠ ':'))
    (hbody0 : ∀ x ∈ bodyB, ¬x = 0) :
    parse_frame (cmdToken cmd ++ 10 ::
      ((((hdrs.map fun kv => (utf8Encode (escOf cmd kv.1), utf8Encode (escOf cmd kv.2))).map
          fun p => p.1 ++ 58 :: (p.2 ++ [10])).flatten) ++ 10 :: (bodyB ++ [0]))) =
      .ok (cmd, hdrs, bodyB) := by
  have hcond : ∀ p ∈ (hdrs.map fun kv =>
      (utf8Encode (escOf cmd kv.1), utf8Encode (escOf cmd kv.2))),
      p.1 ≠ [] ∧ (∀ b ∈ p.1, is_header_octet b = true) ∧
        (∀ b ∈ p.2, is_header_octet b = true) := by
    intro p hp
    obtain ⟨kv, hkv, rfl⟩ := List.mem_map.mp hp
    refine ⟨?_, ?_, ?_⟩
    · rw [Ne, utf8Encode_eq_nil]
      exact escOf_ne_nil cmd kv.1 (hkeys kv hkv)
    · exact utf8Encode_header_octets _ (escOf_no_specials cmd kv.1
        (fun hne => (hplain hne kv hkv).1))
    · exact utf8Encode_header_octets _ (escOf_no_specials cmd kv.2
        (fun hne => (hplain hne kv hkv).2))
  have hlen : (hdrs.map fun kv =>
      (utf8Encode (escOf cmd kv.1), utf8Encode (escOf cmd kv.2))).length ≤
      ((((hdrs.map fun (kv : List Char × List Char) =>
          (utf8Encode (escOf cmd kv.1), utf8Encode (escOf cmd kv.2))).map
        fun (p : List Nat × List Nat) => p.1 ++ 58 :: (p.2 ++ [10])).flatten)
        ++ 10 :: (bodyB ++ [0])).length := by
    have := headerBlock_length_ge (hdrs.map fun kv =>
      (utf8Encode (escOf cmd kv.1), utf8Encode (escOf cmd kv.2)))
    simp only [List.length_append, List.length_cons]
    omega
  have hmany := many0Headers_block
    (hdrs.map fun kv => (utf8Encode (escOf cmd kv.1), utf8Encode (escOf cmd kv.2)))
    (bodyB ++ [0]) _ hlen hcond
  have hcmd := commandParse_token cmd
    ((((hdrs.map fun kv => (utf8Encode (escOf cmd kv.1), utf8Encode (escOf cmd kv.2))).map
      fun (p : List Nat × List Nat) => p.1 ++ 58 :: (p.2 ++ [10])).flatten)
      ++ 10 :: (bodyB ++ [0]))
  have hch : collect_headers cmd
      (hdrs.map fun kv => (utf8Encode (escOf cmd kv.1), utf8Encode (escOf cmd kv.2))) =
      .ok hdrs := by
    have := collectHeadersGo_encoded cmd hdrs [] (by simpa using hnodup)
    simpa [collect_headers] using this
  have hlk : lookupHeader hdrs CONTENT_LENGTH = none := lookupHeader_none _ _ hnocl
  have hpb : parse_body (bodyB ++ [0]) = .ok (bodyB, []) := parse_body_sentinel bodyB hbody0
  simp only [parse_frame, parse_preamble, hcmd, lineEnding, hmany, hch, hlk, hpb]

/-- The body/command invariant every constructed `StompFrame` satisfies:
no body, or a nonempty body on a command that may have one. -/
def frameWF (f : StompFrame) : Prop :=
  match f.body with
  | none => True
  | some b => b ≠ [] ∧ f.cmd.may_have_body = true

theorem try_from_frame_to_bytes (f : StompFrame)
    (hwf : frameWF f)
    (hkeys : ∀ kv ∈ f.headers, kv.1 ≠ [])
    (hnodup : (f.headers.map Prod.fst).Nodup)
    (hnocl : ∀ kv ∈ f.headers, kv.1 ≠ CONTENT_LENGTH)
    (hplain : f.cmd.has_escaped_headers = false →
      ∀ kv ∈ f.headers, (∀ c ∈ kv.1, c ≠ '\r' ∧ c ≠ '\n' ∧ c ≠ ':') ∧
        (∀ c ∈ kv.2, c ≠ '\r' ∧ c ≠ '\n' ∧ c ≠ ':'))
    (hbody : ∀ b, f.body = some b → ∀ x ∈ b, ¬x = 0) :
    try_from (frame_to_bytes f) = .ok f := by
  obtain ⟨cmd, hdrs, body⟩ := f
  rw [frame_to_bytes_closed]
  cases body with
  | none =>
    rw [try_from, parse_frame_encoded cmd hdrs [] hkeys hnodup hnocl hplain (by simp)]
    simp [StompFrame.new]
  | some b =>
    obtain ⟨hbne, hmay⟩ := hwf
    rw [try_from, parse_frame_encoded cmd hdrs b hkeys hnodup hnocl hplain
      (hbody b rfl)]
    simp [StompFrame.new, List.isEmpty_iff, hbne, hmay]

end ParserLemmas

section Claims

/-! ## Claim theorems -/

/-- The per-character escaping rule as worded by the spec (§4.3 step 3):
`\`, CR, LF and `:` become two-character sequences, all other characters
pass through unchanged. -/
def escapeSpecChar (c : Char) : List Char :=
  if c = '\\' then ['\\', '\\']
  else if c = '\r' then ['\\', 'r']
  else if c = '\n' then ['\\', 'n']
  else if c = ':' then ['\\', 'c']
  else [c]

/-- The spec's escaping pass: character-by-character, left to right, each
character independently replaced, with no re-scanning of substituted
output (the substitution images are concatenated, never re-processed). -/
def escapeSpec (s : List Char) : List Char := s.flatMap escapeSpecChar

/-- The encoder's output as worded by the spec (§4.3): canonical command
token, one `\n`, each header pair as `key ':' value` `\n` (escaped exactly
when the command escapes headers), one blank `\n`, the body bytes
verbatim when present, one terminal NUL. -/
def encoderSpec (f : StompFrame) : List Nat :=
  let esc : List Char → List Char :=
    if f.cmd.has_escaped_headers then escapeSpec else id
  utf8Encode (commandName f.cmd).data ++ [10] ++
    (f.headers.map fun kv =>
      utf8Encode (esc kv.1) ++ [58] ++ utf8Encode (esc kv.2) ++ [10]).flatten ++
    [10] ++ f.body.getD [] ++ [0]

theorem escape_header_eq_escapeSpec (s : List Char) : escape_header s = escapeSpec s := by
  induction s with
  | nil => simp [escape_header, escapeSpec]
  | cons c rest ih =>
    by_cases h1 : c = '\r'
    · subst h1; simp [escape_header, escapeSpec, escapeSpecChar, ih]
    by_cases h2 : c = '\n'
    · subst h2; simp [escape_header, escapeSpec, escapeSpecChar, ih]
    by_cases h3 : c = ':'
    · subst h3; simp [escape_header, escapeSpec, escapeSpecChar, ih]
    by_cases h4 : c = '\\'
    · subst h4; simp [escape_header, escapeSpec, escapeSpecChar, ih]
    · simp [escape_header, escapeSpec, escapeSpecChar, h1, h2, h3, h4, ih]

/-- C2: for every Frame the encoder is total (it is a plain function into
byte lists) and emits exactly the canonical uppercase command token, one
`\n`, each header pair as `escaped-key ':' escaped-value '\n'` — escaping
applied per character, left to right, with no re-scanning, exactly when
the command escapes headers — then one blank `\n`, the body verbatim when
present, then exactly one terminal NUL byte. -/
theorem C2_encoder_format (f : StompFrame) : frame_to_bytes f = encoderSpec f := by
  have hfun : escape_header = escapeSpec := funext escape_header_eq_escapeSpec
  rw [frame_to_bytes_closed]
  simp only [encoderSpec, escOf, hfun, cmdToken]
  cases hb : f.body with
  | none => simp [List.map_map, Function.comp_def]
  | some b => simp [List.map_map, Function.comp_def]

/-- C9: when a content-length header is present whose value does not parse
as a non-negative integer, decoding fails with a header-value error naming
`content-length` and carrying the offending value text. -/
theorem C9_content_length_error (input : List Nat) (cmd : StompCommand)
    (pairs : List (List Nat × List Nat)) (rest : List Nat) (headers : StompHeaders)
    (v : List Char)
    (hpre : parse_preamble input = .ok ((cmd, pairs), rest))
    (hch : collect_headers cmd pairs = .ok headers)
    (hcl : lookupHeader headers CONTENT_LENGTH = some v)
    (hv : parseUsize v = none) :
    parse_frame input = .error (.HeaderError CONTENT_LENGTH v) := by
  simp only [parse_frame, hpre, hch, hcl, hv]

/-- C3: with a valid content-length `n`, the decoder takes exactly the
next `n` raw bytes as the body, verbatim (including embedded NULs and
line terminators), and fails with a syntax error carrying the unconsumed
remainder whenever the byte immediately after those `n` bytes is missing
or is not a NUL. -/
theorem C3_content_length_framing (input : List Nat) (cmd : StompCommand)
    (pairs : List (List Nat × List Nat)) (rest : List Nat) (headers : StompHeaders)
    (v : List Char) (n : Nat)
    (hpre : parse_preamble input = .ok ((cmd, pairs), rest))
    (hch : collect_headers cmd pairs = .ok headers)
    (hcl : lookupHeader headers CONTENT_LENGTH = some v)
    (hn : parseUsize v = some n) :
    (rest.length < n → parse_frame input = .error (.SyntaxError rest)) ∧
    (n ≤ rest.length →
      ((rest.drop n).head? = some 0 →
        parse_frame input = .ok (cmd, headers, rest.take n)) ∧
      ((rest.drop n).head? ≠ some 0 →
        parse_frame input = .error (.SyntaxError (rest.drop n)))) := by
  refine ⟨fun hlt => ?_, fun hle => ⟨fun h0 => ?_, fun hne => ?_⟩⟩
  · simp only [parse_frame, hpre, hch, hcl, hn, parse_body_with_len, if_pos hlt]
  · have hnotlt : ¬(rest.length < n) := by omega
    simp only [parse_frame, hpre, hch, hcl, hn, parse_body_with_len, if_neg hnotlt]
    cases hdrop : rest.drop n with
    | nil => rw [hdrop] at h0; simp at h0
    | cons b tl =>
      rw [hdrop] at h0
      simp only [List.head?_cons, Option.some.injEq] at h0
      subst h0
      rfl
  · have hnotlt : ¬(rest.length < n) := by omega
    simp only [parse_frame, hpre, hch, hcl, hn, parse_body_with_len, if_neg hnotlt]
    cases hdrop : rest.drop n with
    | nil => rfl
    | cons b tl =>
      rw [hdrop] at hne
      simp only [List.head?_cons, Ne, Option.some.injEq] at hne
      cases b with
      | zero => exact absurd rfl hne
      | succ b => rfl

theorem takeWhile_all (p : Nat → Bool) (l : List Nat) (h : ∀ x ∈ l, p x = true) :
    l.takeWhile p = l := by
  induction l with
  | nil => rfl
  | cons x xs ih =>
    simp only [List.takeWhile, h x (by simp)]
    rw [ih (fun a ha => h a (by simp [ha]))]

/-- C4: with no content-length header, the decoded body is the longest
NUL-free run of the remaining input; exactly one NUL must follow it (no
NUL at all is a syntax failure), and trailing line terminators after that
NUL are consumed and discarded, never attached to the body. -/
theorem C4_sentinel_framing (input : List Nat) (cmd : StompCommand)
    (pairs : List (List Nat × List Nat)) (rest : List Nat) (headers : StompHeaders)
    (hpre : parse_preamble input = .ok ((cmd, pairs), rest))
    (hch : collect_headers cmd pairs = .ok headers)
    (hcl : lookupHeader headers CONTENT_LENGTH = none) :
    (∀ b rem, rest = b ++ 0 :: rem → (∀ x ∈ b, ¬x = 0) →
      parse_frame input = .ok (cmd, headers, b) ∧
      parse_body rest = .ok (b, dropLineEndings rem)) ∧
    ((∀ x ∈ rest, ¬x = 0) → parse_frame input = .error (.SyntaxError [])) := by
  constructor
  · intro b rem hsplit h0
    have htake : (b ++ 0 :: rem).takeWhile (fun c => !(c = 0)) = b :=
      takeWhile_append_stop _ b 0 rem (fun x hx => by simp [h0 x hx]) (by simp)
    have hpb : parse_body rest = .ok (b, dropLineEndings rem) := by
      rw [hsplit]
      simp only [parse_body, htake, List.drop_left]
    exact ⟨by simp only [parse_frame, hpre, hch, hcl, hpb], hpb⟩
  · intro h0
    have htake : rest.takeWhile (fun c => !(c = 0)) = rest :=
      takeWhile_all _ rest (fun x hx => by simp [h0 x hx])
    have hpb : parse_body rest = .error [] := by
      simp only [parse_body, htake, List.drop_length]
    simp only [parse_frame, hpre, hch, hcl, hpb]

/-- C6: frame construction normalizes an empty body to "no body", fails
with a syntax error naming the offending command exactly when the body is
non-empty and the command may not have a body (true only for SEND,
MESSAGE, ERROR), succeeds otherwise — and the decoder pipes every parsed
triple through this same gate. -/
theorem C6_construction_gate (cmd : StompCommand) (headers : StompHeaders)
    (body : List Nat) :
    (body = [] → StompFrame.new cmd headers body = .ok ⟨cmd, headers, none⟩) ∧
    (body ≠ [] → cmd.may_have_body = false →
      StompFrame.new cmd headers body =
        .error (.SyntaxError (utf8Encode
          ("frame type " ++ commandName cmd ++ " must not have a body").data))) ∧
    (body ≠ [] → cmd.may_have_body = true →
      StompFrame.new cmd headers body = .ok ⟨cmd, headers, some body⟩) ∧
    (cmd.may_have_body = true ↔
      cmd = .SEND ∨ cmd = .MESSAGE ∨ cmd = .ERROR) ∧
    (∀ input, try_from input =
      (parse_frame input).bind fun t => StompFrame.new t.1 t.2.1 t.2.2) := by
  refine ⟨fun hb => ?_, fun hb hmay => ?_, fun hb hmay => ?_, ?_, fun input => ?_⟩
  · subst hb; simp [StompFrame.new]
  · simp [StompFrame.new, List.isEmpty_iff, hb, hmay, newBodyErrMsg]
  · simp [StompFrame.new, List.isEmpty_iff, hb, hmay]
  · cases cmd <;> simp [StompCommand.may_have_body]
  · show try_from input = _
    rw [try_from]
    cases parse_frame input with
    | error e => rfl
    | ok t => rfl

/-- C7 counterexample: the claim "no token is a prefix of another" is
false — the CONNECT token extended with the bytes of "ED" is exactly the
CONNECTED token, i.e. `tag(CONNECT)` succeeds on the CONNECTED token. -/
theorem C7_counterexample :
    cmdToken .CONNECT ++ [69, 68] = cmdToken .CONNECTED ∧
    tagBytes (cmdToken .CONNECT) (cmdToken .CONNECTED) = some [69, 68] := by
  constructor <;> decide

/-- C7 (amended): CONNECT/CONNECTED is the only prefix-related pair among
the 15 command tokens, and in the deterministic match order used
(CONNECTED tried before CONNECT) every token followed by the line
terminator resolves to exactly its own command variant. -/
theorem C7_token_resolution :
    (∀ c1 c2 : StompCommand, (tagBytes (cmdToken c1) (cmdToken c2)).isSome = true →
      c1 = c2 ∨ (c1 = .CONNECT ∧ c2 = .CONNECTED)) ∧
    (∀ (cmd : StompCommand) (rest : List Nat),
      commandParse (cmdToken cmd ++ 10 :: rest) = .ok (cmd, 10 :: rest)) := by
  constructor
  · intro c1 c2
    cases c1 <;> cases c2 <;> decide
  · exact commandParse_token

theorem collectHeadersGo_eq (cmd : StompCommand) :
    ∀ (pairs : List (List Nat × List Nat)) (acc : StompHeaders),
    collectHeadersGo cmd pairs acc =
      match pairs.mapM (decodePair cmd) with
      | .error e => .error e
      | .ok l => .ok (l.foldl (fun a kv => orInsert a kv.1 kv.2) acc) := by
  intro pairs
  induction pairs with
  | nil => intro acc; rfl
  | cons p rest ih =>
    intro acc
    simp only [collectHeadersGo, List.mapM_cons]
    cases hp : decodePair cmd p with
    | error e => rfl
    | ok kv =>
      obtain ⟨key, value⟩ := kv
      simp only [ih (orInsert acc key value)]
      cases hrest : rest.mapM (decodePair cmd) with
      | error e => rfl
      | ok l => rfl

theorem lookup_foldl_orInsert :
    ∀ (l : List (List Char × List Char)) (acc : StompHeaders) (k : List Char),
    lookupHeader (l.foldl (fun a kv => orInsert a kv.1 kv.2) acc) k =
      (match lookupHeader acc k with
       | some v => some v
       | none => (l.find? (fun e => e.1 == k)).map (·.2)) := by
  intro l
  induction l with
  | nil => intro acc k; cases h : lookupHeader acc k <;> simp [h]
  | cons kv l ih =>
    intro acc k
    simp only [List.foldl_cons, ih]
    by_cases hpres : (acc.find? (fun e => e.1 == kv.1)).isSome
    · have hacc : orInsert acc kv.1 kv.2 = acc := by simp [orInsert, hpres]
      rw [hacc]
      cases hlk : lookupHeader acc k with
      | some v => simp
      | none =>
        by_cases hk : k = kv.1
        · exfalso
          subst hk
          rw [Option.isSome_iff_exists] at hpres
          obtain ⟨e, he⟩ := hpres
          simp [lookupHeader, he] at hlk
        · have hbeq : (kv.1 == k) = false := by
            simp only [beq_eq_false_iff_ne, Ne]
            exact fun h => hk h.symm
          simp [List.find?_cons, hbeq]
    · have hacc : orInsert acc kv.1 kv.2 = acc ++ [(kv.1, kv.2)] := by
        simp only [orInsert]
        rw [if_neg hpres]
      rw [hacc]
      have hfapp : (acc ++ [(kv.1, kv.2)]).find? (fun e => e.1 == k) =
          (acc.find? (fun e => e.1 == k)).or
            ([(kv.1, kv.2)].find? (fun e => e.1 == k)) :=
        List.find?_append
      cases hlk : lookupHeader acc k with
      | some v =>
        obtain ⟨e, hfe, hev⟩ : ∃ e, acc.find? (fun x => x.1 == k) = some e ∧ e.2 = v := by
          simp only [lookupHeader] at hlk
          cases hfe : acc.find? (fun x => x.1 == k) with
          | none => rw [hfe] at hlk; simp at hlk
          | some e => rw [hfe] at hlk; simp at hlk; exact ⟨e, rfl, hlk⟩
        have : lookupHeader (acc ++ [(kv.1, kv.2)]) k = some v := by
          simp [lookupHeader, hfapp, hfe, hev]
        rw [this]
      | none =>
        have hfnone : acc.find? (fun e => e.1 == k) = none := by
          simp only [lookupHeader] at hlk
          cases hfe : acc.find? (fun e => e.1 == k) with
          | none => rfl
          | some e => rw [hfe] at hlk; simp at hlk
        by_cases hk : k = kv.1
        · have hbeq : (kv.1 == k) = true := by simp [beq_iff_eq, hk]
          have hone : [(kv.1, kv.2)].find? (fun e => e.1 == k) = some (kv.1, kv.2) := by
            simp [List.find?_cons, hbeq]
          have : lookupHeader (acc ++ [(kv.1, kv.2)]) k = some kv.2 := by
            simp [lookupHeader, hfapp, hfnone, hone]
          rw [this]
          simp [List.find?_cons, hbeq]
        · have hbeq : (kv.1 == k) = false := by
            simp only [beq_eq_false_iff_ne, Ne]
            exact fun h => hk h.symm
          have hone : [(kv.1, kv.2)].find? (fun e => e.1 == k) = none := by
            simp [List.find?_cons, hbeq]
          have : lookupHeader (acc ++ [(kv.1, kv.2)]) k = none := by
            simp [lookupHeader, hfapp, hfnone, hone]
          rw [this]
          simp [List.find?_cons, hbeq]

/-- C5: header lines are inserted with first-occurrence-wins semantics —
for every decoded frame, the header map's value at a key is the value of
the first (in arrival order) decoded pair carrying that key, and later
duplicates are silently discarded. -/
theorem C5_first_occurrence_wins (cmd : StompCommand)
    (pairs : List (List Nat × List Nat)) (l : List (List Char × List Char))
    (hs : StompHeaders)
    (hdec : pairs.mapM (decodePair cmd) = .ok l)
    (hch : collect_headers cmd pairs = .ok hs) :
    ∀ k, lookupHeader hs k = (l.find? (fun e => e.1 == k)).map (·.2) := by
  intro k
  rw [collect_headers, collectHeadersGo_eq, hdec] at hch
  simp only [Except.ok.injEq] at hch
  subst hch
  rw [lookup_foldl_orInsert]
  simp [lookupHeader]

/-- The spec's notion of a malformed escape, read along the left-to-right
escape scan: an escape introducer `\` followed by anything other than
`r`, `n`, `c`, `\` — or followed by nothing (a trailing lone `\`). -/
def hasBadEscape : List Char → Bool
  | [] => false
  | '\\' :: c :: rest =>
    if c = 'r' ∨ c = 'n' ∨ c = 'c' ∨ c = '\\' then hasBadEscape rest else true
  | ['\\'] => true
  | _ :: rest => hasBadEscape rest

theorem unescapeScan_none_iff :
    ∀ (n : Nat) (s : List Char), s.length ≤ n →
    ((unescapeScan s = none) ↔ hasBadEscape s = true) := by
  intro n
  induction n with
  | zero =>
    intro s hlen
    rcases s with _ | ⟨c, rest⟩
    · simp [unescapeScan, hasBadEscape]
    · simp at hlen
  | succ n ih =>
    intro s hlen
    rcases s with _ | ⟨c, rest⟩
    · simp [unescapeScan, hasBadEscape]
    · by_cases hc : c = '\\'
      · subst hc
        rcases rest with _ | ⟨c2, rest2⟩
        · simp [unescapeScan, hasBadEscape]
        · by_cases h1 : c2 = 'r'
          · subst h1
            simp only [unescapeScan, hasBadEscape]
            rw [if_pos (by simp)]
            simp only [List.length_cons] at hlen
            rw [← ih rest2 (by omega)]
            cases unescapeScan rest2 <;> simp
          by_cases h2 : c2 = 'n'
          · subst h2
            simp only [unescapeScan, hasBadEscape]
            rw [if_pos (by simp)]
            simp only [List.length_cons] at hlen
            rw [← ih rest2 (by omega)]
            cases unescapeScan rest2 <;> simp
          by_cases h3 : c2 = 'c'
          · subst h3
            simp only [unescapeScan, hasBadEscape]
            rw [if_pos (by simp)]
            simp only [List.length_cons] at hlen
            rw [← ih rest2 (by omega)]
            cases unescapeScan rest2 <;> simp
          by_cases h4 : c2 = '\\'
          · subst h4
            simp only [unescapeScan, hasBadEscape]
            rw [if_pos (by simp)]
            simp only [List.length_cons] at hlen
            rw [← ih rest2 (by omega)]
            cases unescapeScan rest2 <;> simp
          · simp [unescapeScan, hasBadEscape, h1, h2, h3, h4]
      · simp only [List.length_cons] at hlen
        rw [show unescapeScan (c :: rest) = (unescapeScan rest).map (c :: ·) by
          simp [unescapeScan, hc]]
        rw [show hasBadEscape (c :: rest) = hasBadEscape rest by
          simp [hasBadEscape, hc]]
        rw [← ih rest (by omega)]
        cases unescapeScan rest <;> simp

theorem collectHeadersGo_ok_decodes (cmd : StompCommand) :
    ∀ (pairs : List (List Nat × List Nat)) (acc hs : StompHeaders),
    collectHeadersGo cmd pairs acc = .ok hs →
    ∀ p ∈ pairs, ∃ kv, decodePair cmd p = .ok kv := by
  intro pairs
  induction pairs with
  | nil => intro acc hs _ p hp; simp at hp
  | cons q rest ih =>
    intro acc hs hok p hp
    simp only [collectHeadersGo] at hok
    cases hq : decodePair cmd q with
    | error e => rw [hq] at hok; simp at hok
    | ok kv =>
      rw [hq] at hok
      rcases List.mem_cons.mp hp with rfl | hmem
      · exact ⟨kv, hq⟩
      · obtain ⟨key, value⟩ := kv
        exact ih _ _ hok p hmem

theorem decodePair_ok_no_bad_escape (cmd : StompCommand) (hesc : cmd.has_escaped_headers = true)
    (p : List Nat × List Nat) (kv : List Char × List Char)
    (hok : decodePair cmd p = .ok kv) (t : List Char)
    (ht : utf8Decode p.1 = some t ∨ utf8Decode p.2 = some t) :
    hasBadEscape t = false := by
  simp only [decodePair] at hok
  cases hk : utf8Decode p.1 with
  | none => rw [hk] at hok; simp at hok
  | some kChars =>
    rw [hk] at hok
    dsimp only at hok
    cases hu : unescape_header kChars cmd with
    | error e => rw [hu] at hok; simp at hok
    | ok key =>
      rw [hu] at hok
      dsimp only at hok
      cases hv : utf8Decode p.2 with
      | none => rw [hv] at hok; simp at hok
      | some vChars =>
        rw [hv] at hok
        dsimp only at hok
        cases hu2 : unescape_header vChars cmd with
        | error e => rw [hu2] at hok; simp at hok
        | ok value =>
          have hscan : ∀ u w, unescape_header u cmd = .ok w → hasBadEscape u = false := by
            intro u w hw
            simp only [unescape_header, hesc, if_pos] at hw
            cases hsc : unescapeScan u with
            | none => rw [hsc] at hw; simp at hw
            | some x =>
              have := (unescapeScan_none_iff u.length u (le_refl _)).symm
              rw [Bool.eq_false_iff, Ne]
              intro hbad
              rw [← unescapeScan_none_iff u.length u (le_refl _)] at hbad
              rw [hbad] at hsc
              cases hsc
          rcases ht with ht | ht
          · rw [hk] at ht; cases ht; exact hscan _ _ hu
          · rw [hv] at ht; cases ht; exact hscan _ _ hu2

/-- C8: for every command other than CONNECT and CONNECTED, a header
string in which the left-to-right escape scan meets `\` followed by
anything other than `r`, `n`, `c`, `\` — or a trailing lone `\` — makes
unescaping fail with a syntax error carrying the original un-decoded
header string; consequently no frame whose header block contains such a
key or value ever decodes successfully. -/
theorem C8_malformed_escape (cmd : StompCommand)
    (hc1 : cmd ≠ .CONNECT) (hc2 : cmd ≠ .CONNECTED) :
    (∀ s : List Char, hasBadEscape s = true →
      unescape_header s cmd = .error (.SyntaxError (utf8Encode s))) ∧
    (∀ (pairs : List (List Nat × List Nat)) (hs : StompHeaders),
      collect_headers cmd pairs = .ok hs →
      ∀ p ∈ pairs, ∀ t, (utf8Decode p.1 = some t ∨ utf8Decode p.2 = some t) →
        hasBadEscape t = false) := by
  have hesc : cmd.has_escaped_headers = true := by
    cases cmd <;> simp_all [StompCommand.has_escaped_headers]
  constructor
  · intro s hbad
    rw [← unescapeScan_none_iff s.length s (le_refl _)] at hbad
    simp [unescape_header, hesc, hbad]
  · intro pairs hs hok p hp t ht
    obtain ⟨kv, hkv⟩ := collectHeadersGo_ok_decodes cmd pairs [] hs hok p hp
    exact decodePair_ok_no_bad_escape cmd hesc p kv hkv t ht

theorem tagBytes_some_append :
    ∀ (tok input r s : List Nat), tagBytes tok input = some r →
    tagBytes tok (input ++ s) = some (r ++ s) := by
  intro tok
  induction tok with
  | nil =>
    intro input r s h
    injection h with h
    subst h
    rfl
  | cons t ts ih =>
    intro input r s h
    cases input with
    | nil => simp [tagBytes] at h
    | cons b bs =>
      simp only [tagBytes] at h
      simp only [List.cons_append, tagBytes]
      split_ifs at h ⊢ with hb
      · exact ih bs r s h

theorem tagBytes_some_decomp :
    ∀ (tok input r : List Nat), tagBytes tok input = some r → input = tok ++ r := by
  intro tok
  induction tok with
  | nil =>
    intro input r h
    have h2 : input = r := by injection h
    simp [h2]
  | cons t ts ih =>
    intro input r h
    cases input with
    | nil => simp [tagBytes] at h
    | cons b bs =>
      simp only [tagBytes] at h
      split_ifs at h with hb
      · subst hb; simp [ih bs r h]

theorem tagBytes_none_append :
    ∀ (tok input s : List Nat), tagBytes tok input = none →
    (∀ b ∈ tok, ¬b = 10 ∧ ¬b = 13) → (10 ∈ input ∨ 13 ∈ input) →
    tagBytes tok (input ++ s) = none := by
  intro tok
  induction tok with
  | nil => intro input s h _ _; injection h
  | cons t ts ih =>
    intro input s h htok hmem
    cases input with
    | nil => simp at hmem
    | cons b bs =>
      simp only [tagBytes] at h
      simp only [List.cons_append, tagBytes]
      split_ifs at h ⊢ with hb
      · subst hb
        refine ih bs s h (fun x hx => htok x (by simp [hx])) ?_
        obtain ⟨ht10, ht13⟩ := htok b (by simp)
        rcases hmem with hm | hm <;> rcases List.mem_cons.mp hm with rfl | hm2
        · exact absurd rfl ht10
        · exact Or.inl hm2
        · exact absurd rfl ht13
        · exact Or.inr hm2
      · rfl

theorem cmdToken_no_terminators (c : StompCommand) :
    ∀ b ∈ cmdToken c, ¬b = 10 ∧ ¬b = 13 := by
  cases c <;> decide

theorem commandParse_append (input : List Nat) (cmd : StompCommand) (r s : List Nat)
    (h : commandParse input = .ok (cmd, r)) (hmem : 10 ∈ input ∨ 13 ∈ input) :
    commandParse (input ++ s) = .ok (cmd, r ++ s) := by
  rw [commandParse] at h ⊢
  generalize hl : cmdAltOrder = l at *
  clear hl
  induction l with
  | nil => simp [altCmds] at h
  | cons c cs ih =>
    simp only [altCmds] at h ⊢
    cases htag : tagBytes (cmdToken c) input with
    | some rr =>
      rw [htag] at h
      simp only [Except.ok.injEq, Prod.mk.injEq] at h
      obtain ⟨rfl, rfl⟩ := h
      rw [tagBytes_some_append _ _ _ s htag]
    | none =>
      rw [htag] at h
      rw [tagBytes_none_append _ _ s htag (cmdToken_no_terminators c) hmem]
      exact ih h

theorem lineEnding_ok_shape (input r : List Nat) (h : lineEnding input = .ok r) :
    input = 10 :: r ∨ input = 13 :: 10 :: r := by
  unfold lineEnding at h
  split at h
  · cases h; exact Or.inl rfl
  · cases h; exact Or.inr rfl
  · cases h

theorem lineEnding_append (input r s : List Nat) (h : lineEnding input = .ok r) :
    lineEnding (input ++ s) = .ok (r ++ s) := by
  rcases lineEnding_ok_shape input r h with rfl | rfl <;> rfl

theorem takeWhile_take (p : Nat → Bool) :
    ∀ l : List Nat, l.take (l.takeWhile p).length = l.takeWhile p := by
  intro l
  induction l with
  | nil => rfl
  | cons x xs ih =>
    by_cases hx : p x
    · simp [List.takeWhile_cons, hx, ih]
    · simp [List.takeWhile_cons, hx]

theorem mem_takeWhile_sat (p : Nat → Bool) :
    ∀ (l : List Nat) (x : Nat), x ∈ l.takeWhile p → p x = true := by
  intro l
  induction l with
  | nil => intro x hx; simp at hx
  | cons y ys ih =>
    intro x hx
    by_cases hy : p y
    · rw [List.takeWhile_cons, if_pos hy] at hx
      rcases List.mem_cons.mp hx with rfl | hx2
      · exact hy
      · exact ih x hx2
    · rw [List.takeWhile_cons, if_neg hy] at hx
      simp at hx

theorem take_append_drop_self (l : List Nat) (n : Nat) : l.take n ++ l.drop n = l :=
  List.take_append_drop n l

theorem parse_header_ok_of_lineEnding (key val t rest : List Nat)
    (hk : key ≠ []) (hko : ∀ b ∈ key, is_header_octet b = true)
    (hvo : ∀ b ∈ val, is_header_octet b = true)
    (hle : lineEnding t = .ok rest) :
    parse_header (key ++ 58 :: (val ++ t)) = .ok ((key, val), rest) := by
  rcases lineEnding_ok_shape _ _ hle with rfl | rfl
  · exact parse_header_bytes key val rest hk hko hvo
  · have htake : (key ++ 58 :: (val ++ 13 :: 10 :: rest)).takeWhile is_header_octet = key :=
      takeWhile_append_stop _ key 58 _ hko (by decide)
    have htakev : (val ++ 13 :: 10 :: rest).takeWhile is_header_octet = val :=
      takeWhile_append_stop _ val 13 _ hvo (by decide)
    simp only [parse_header, htake, htakev, List.drop_left, lineEnding]
    simp [hk]

theorem parse_header_append (input : List Nat) (pr : List Nat × List Nat) (rest s : List Nat)
    (h : parse_header input = .ok (pr, rest)) :
    parse_header (input ++ s) = .ok (pr, rest ++ s) := by
  simp only [parse_header] at h
  split_ifs at h with hemp
  replace h := h.symm
  split at h
  next r1 heq =>
    split at h
    next rest2 heq2 =>
      replace h := h.symm
      injection h with h
      injection h with h1 h2
      subst h1
      subst h2
      have hinput : input = input.takeWhile is_header_octet ++ 58 :: r1 := by
        conv_lhs => rw [← take_append_drop_self input (input.takeWhile is_header_octet).length]
        rw [takeWhile_take, heq]
      have hr1 : r1 = r1.takeWhile is_header_octet ++
          r1.drop (r1.takeWhile is_header_octet).length := by
        conv_lhs => rw [← take_append_drop_self r1 (r1.takeWhile is_header_octet).length]
        rw [takeWhile_take]
      have hw : input ++ s = input.takeWhile is_header_octet ++
          58 :: (r1.takeWhile is_header_octet ++
            (r1.drop (r1.takeWhile is_header_octet).length ++ s)) := by
        conv_lhs => rw [hinput, hr1]
        simp
      rw [hw]
      exact parse_header_ok_of_lineEnding _ _ _ _
        (by simpa [List.isEmpty_iff] using hemp)
        (fun b hb => mem_takeWhile_sat _ input b hb)
        (fun b hb => mem_takeWhile_sat _ r1 b hb)
        (lineEnding_append _ _ s heq2)
    next e heq2 => cases h
  next other heq => cases h


theorem many0Headers_append_stable :
    ∀ (f1 : Nat) (input : List Nat) (pairs : List (List Nat × List Nat)) (r3 s : List Nat),
    many0Headers f1 input = (pairs, r3) →
    (∀ s2, parse_header (r3 ++ s2) = .error (r3 ++ s2)) →
    ∀ f2, f1 ≤ f2 → many0Headers f2 (input ++ s) = (pairs, r3 ++ s) := by
  intro f1
  induction f1 with
  | zero =>
    intro input pairs r3 s h hstop f2 _
    simp only [many0Headers] at h
    injection h with h1 h2
    subst h1
    subst h2
    cases f2 with
    | zero => rfl
    | succ f2 => simp only [many0Headers, hstop s]
  | succ f1 ih =>
    intro input pairs r3 s h hstop f2 hf
    simp only [many0Headers] at h
    cases hph : parse_header input with
    | error e =>
      rw [hph] at h
      injection h with h1 h2
      subst h1
      subst h2
      cases f2 with
      | zero => rfl
      | succ f2 => simp only [many0Headers, hstop s]
    | ok pr =>
      obtain ⟨pair, rest⟩ := pr
      rw [hph] at h
      dsimp only at h
      rcases f2 with _ | f2
      · omega
      · have hph2 := parse_header_append input pair rest s hph
        simp only [many0Headers, hph2]
        cases hm : many0Headers f1 rest with
        | mk ps rr =>
          rw [hm] at h
          dsimp only at h
          injection h with h1 h2
          subst h1
          subst h2
          rw [ih rest ps rr s hm hstop f2 (by omega)]

theorem commandParse_decomp (input : List Nat) (cmd : StompCommand) (r : List Nat)
    (h : commandParse input = .ok (cmd, r)) : input = cmdToken cmd ++ r := by
  rw [commandParse] at h
  generalize hl : cmdAltOrder = l at *
  clear hl
  induction l with
  | nil => simp [altCmds] at h
  | cons c cs ih =>
    simp only [altCmds] at h
    cases htag : tagBytes (cmdToken c) input with
    | some rr =>
      rw [htag] at h
      simp only [Except.ok.injEq, Prod.mk.injEq] at h
      obtain ⟨rfl, rfl⟩ := h
      exact tagBytes_some_decomp _ _ _ htag
    | none =>
      rw [htag] at h
      exact ih h

theorem parse_header_error_at_terminator (b : Nat) (hb : b = 10 ∨ b = 13) (t : List Nat) :
    ∀ s2, parse_header ((b :: t) ++ s2) = .error ((b :: t) ++ s2) := by
  intro s2
  have hoct : is_header_octet b = false := by rcases hb with rfl | rfl <;> decide
  simp [parse_header, List.takeWhile_cons, hoct]

theorem parse_preamble_append (input : List Nat) (cmd : StompCommand)
    (pairs : List (List Nat × List Nat)) (rest s : List Nat)
    (h : parse_preamble input = .ok ((cmd, pairs), rest)) :
    parse_preamble (input ++ s) = .ok ((cmd, pairs), rest ++ s) := by
  simp only [parse_preamble] at h
  cases hcp : commandParse input with
  | error e => rw [hcp] at h; cases h
  | ok pr =>
    obtain ⟨cmd0, r1⟩ := pr
    rw [hcp] at h
    dsimp only at h
    cases hle : lineEnding r1 with
    | error e => rw [hle] at h; cases h
    | ok r2 =>
      rw [hle] at h
      dsimp only at h
      cases hm : many0Headers r2.length r2 with
      | mk prs r3 =>
        rw [hm] at h
        dsimp only at h
        cases hle2 : lineEnding r3 with
        | error e => rw [hle2] at h; cases h
        | ok rest2 =>
          rw [hle2] at h
          dsimp only at h
          injection h with h
          injection h with h1 h2
          injection h1 with h1a h1b
          subst h1a
          subst h1b
          subst h2
          have hmem : 10 ∈ input ∨ 13 ∈ input := by
            have hd := commandParse_decomp input cmd0 r1 hcp
            rcases lineEnding_ok_shape r1 r2 hle with hsh | hsh <;>
              rw [hd, hsh] <;> [exact Or.inl (by simp); exact Or.inr (by simp)]
          have hcp2 := commandParse_append input cmd0 r1 s hcp hmem
          have hle12 := lineEnding_append r1 r2 s hle
          have hstop : ∀ s2, parse_header (r3 ++ s2) = .error (r3 ++ s2) := by
            rcases lineEnding_ok_shape r3 rest2 hle2 with hsh | hsh <;> rw [hsh]
            · exact parse_header_error_at_terminator 10 (Or.inl rfl) rest2
            · exact parse_header_error_at_terminator 13 (Or.inr rfl) (10 :: rest2)
          have hm2 := many0Headers_append_stable r2.length r2 prs r3 s hm hstop
            (r2 ++ s).length (by simp)
          have hle22 := lineEnding_append r3 rest2 s hle2
          simp only [parse_preamble, hcp2, hle12, hm2, hle22]

theorem drop_append_le (l1 l2 : List Nat) (n : Nat) (h : n ≤ l1.length) :
    (l1 ++ l2).drop n = l1.drop n ++ l2 := by
  rw [List.drop_append_eq_append_drop]
  rw [show n - l1.length = 0 by omega]
  simp

theorem take_append_le (l1 l2 : List Nat) (n : Nat) (h : n ≤ l1.length) :
    (l1 ++ l2).take n = l1.take n := by
  rw [List.take_append_eq_append_take]
  rw [show n - l1.length = 0 by omega]
  simp

theorem takeWhile_length_le (p : Nat → Bool) :
    ∀ l : List Nat, (l.takeWhile p).length ≤ l.length := by
  intro l
  induction l with
  | nil => simp
  | cons x xs ih =>
    by_cases hx : p x
    · simp only [List.takeWhile_cons, if_pos hx, List.length_cons]
      omega
    · simp [List.takeWhile_cons, if_neg hx]

theorem parse_body_with_len_append (input : List Nat) (n : Nat) (body rem s : List Nat)
    (h : parse_body_with_len input n = .ok (body, rem)) :
    ∃ rem2, parse_body_with_len (input ++ s) n = .ok (body, rem2) := by
  simp only [parse_body_with_len] at h
  split_ifs at h with hlt
  replace h := h.symm
  split at h
  next r heq =>
    replace h := h.symm
    injection h with h
    injection h with h1 h2
    subst h1
    have hlen2 : ¬((input ++ s).length < n) := by simp; omega
    have hdrop2 : (input ++ s).drop n = 0 :: (r ++ s) := by
      rw [drop_append_le input s n (by omega), heq]
      rfl
    refine ⟨dropLineEndings (r ++ s), ?_⟩
    simp only [parse_body_with_len, if_neg hlen2, hdrop2]
    rw [take_append_le input s n (by omega)]
  next other heq => cases h

theorem parse_body_append (input : List Nat) (body rem s : List Nat)
    (h : parse_body input = .ok (body, rem)) :
    ∃ rem2, parse_body (input ++ s) = .ok (body, rem2) := by
  simp only [parse_body] at h
  replace h := h.symm
  split at h
  next r heq =>
    replace h := h.symm
    injection h with h
    injection h with h1 h2
    subst h1
    have hdec : input = input.takeWhile (fun c => !(c = 0)) ++
        0 :: r := by
      conv_lhs => rw [← take_append_drop_self input
        (input.takeWhile (fun c => !(c = 0))).length]
      rw [takeWhile_take, heq]
    have htk2 : (input ++ s).takeWhile (fun c => !(c = 0)) =
        input.takeWhile (fun c => !(c = 0)) := by
      conv_lhs => rw [hdec, List.append_assoc, List.cons_append]
      exact takeWhile_append_stop _ _ 0 _
        (fun x hx => mem_takeWhile_sat _ input x hx) (by decide)
    have hdrop2 : (input ++ s).drop
        ((input.takeWhile (fun c => !(c = 0))).length) = 0 :: (r ++ s) := by
      rw [drop_append_le input s _ (takeWhile_length_le _ input), heq]
      rfl
    refine ⟨dropLineEndings (r ++ s), ?_⟩
    simp only [parse_body, htk2, hdrop2]
  next other heq => cases h

/-- C10: appending arbitrary extra bytes to a successfully decoded buffer
does not change the decoded frame — everything after the terminal NUL and
the consumed trailing line terminators is silently discarded, never
rejected. -/
theorem C10_trailing_bytes_ignored (input : List Nat) (f : StompFrame)
    (h : try_from input = .ok f) (s : List Nat) :
    try_from (input ++ s) = .ok f := by
  rw [try_from] at h ⊢
  cases hpf : parse_frame input with
  | error e => rw [hpf] at h; cases h
  | ok t =>
    obtain ⟨cmdv, headers, body⟩ := t
    rw [hpf] at h
    have hpf2 : parse_frame (input ++ s) = .ok (cmdv, headers, body) := by
      rw [parse_frame] at hpf
      cases hpre : parse_preamble input with
      | error e => rw [hpre] at hpf; cases hpf
      | ok pr =>
        obtain ⟨⟨cmd0, pairs⟩, rest⟩ := pr
        rw [hpre] at hpf
        dsimp only at hpf
        have hpre2 := parse_preamble_append input cmd0 pairs rest s hpre
        cases hch : collect_headers cmd0 pairs with
        | error e => rw [hch] at hpf; cases hpf
        | ok hdrs =>
          rw [hch] at hpf
          dsimp only at hpf
          cases hlk : lookupHeader hdrs CONTENT_LENGTH with
          | some v =>
            rw [hlk] at hpf
            dsimp only at hpf
            cases hn : parseUsize v with
            | none => rw [hn] at hpf; cases hpf
            | some n =>
              rw [hn] at hpf
              dsimp only at hpf
              cases hbl : parse_body_with_len rest n with
              | error e => rw [hbl] at hpf; cases hpf
              | ok pr2 =>
                obtain ⟨bd, rem⟩ := pr2
                rw [hbl] at hpf
                dsimp only at hpf
                injection hpf with hpf
                injection hpf with he1 he2
                injection he2 with he2a he2b
                subst he1
                subst he2a
                subst he2b
                obtain ⟨rem2, hbl2⟩ := parse_body_with_len_append rest n bd rem s hbl
                simp only [parse_frame, hpre2, hch, hlk, hn, hbl2]
          | none =>
            rw [hlk] at hpf
            dsimp only at hpf
            cases hbl : parse_body rest with
            | error e => rw [hbl] at hpf; cases hpf
            | ok pr2 =>
              obtain ⟨bd, rem⟩ := pr2
              rw [hbl] at hpf
              dsimp only at hpf
              injection hpf with hpf
              injection hpf with he1 he2
              injection he2 with he2a he2b
              subst he1
              subst he2a
              subst he2b
              obtain ⟨rem2, hbl2⟩ := parse_body_append rest bd rem s hbl
              simp only [parse_frame, hpre2, hch, hlk, hbl2]
    rw [hpf2]
    exact h

/-- C1 counterexample: the round-trip claim fails as stated.  The frame
`SEND` with the single-valued header map `content-length -> "x"` and no
body satisfies the body/command invariant, yet decoding its encoding
fails (with a header-value error) instead of reproducing the frame. -/
theorem C1_roundtrip_counterexample :
    frameWF { cmd := .SEND, headers := [(CONTENT_LENGTH, ['x'])], body := none } ∧
    (({ cmd := .SEND, headers := [(CONTENT_LENGTH, ['x'])], body := none } :
      StompFrame).headers.map Prod.fst).Nodup ∧
    try_from (frame_to_bytes
        { cmd := .SEND, headers := [(CONTENT_LENGTH, ['x'])], body := none }) ≠
      .ok { cmd := .SEND, headers := [(CONTENT_LENGTH, ['x'])], body := none } :=
  ⟨trivial, by decide, by decide⟩

/-- C1 (amended): decode(encode(frame)) reproduces the frame for every
frame satisfying the body/command invariant whose header map is
single-valued, provided additionally that header keys are nonempty, that
no header is named `content-length`, that for the two commands without
header escaping (CONNECT, CONNECTED) header keys and values contain no
CR, LF or `:`, and that the body, when present, contains no NUL byte —
each extra hypothesis matching a way the original claim fails. -/
theorem C1_roundtrip_amended (f : StompFrame)
    (hwf : frameWF f)
    (hsingle : (f.headers.map Prod.fst).Nodup)
    (hkeys : ∀ kv ∈ f.headers, kv.1 ≠ [])
    (hnocl : ∀ kv ∈ f.headers, kv.1 ≠ CONTENT_LENGTH)
    (hplain : f.cmd.has_escaped_headers = false →
      ∀ kv ∈ f.headers, (∀ c ∈ kv.1, c ≠ '\r' ∧ c ≠ '\n' ∧ c ≠ ':') ∧
        (∀ c ∈ kv.2, c ≠ '\r' ∧ c ≠ '\n' ∧ c ≠ ':'))
    (hbody : ∀ b, f.body = some b → ∀ x ∈ b, ¬x = 0) :
    try_from (frame_to_bytes f) = .ok f :=
  try_from_frame_to_bytes f hwf hkeys hsingle hnocl hplain hbody

theorem C1_roundtrip_witness :
    try_from (frame_to_bytes
        { cmd := .SEND
          headers := [("destination".data, "/queue/a".data)]
          body := some [104, 105] }) =
      .ok { cmd := .SEND
            headers := [("destination".data, "/queue/a".data)]
            body := some [104, 105] } :=
  C1_roundtrip_amended _ ⟨by decide, by decide⟩ (by decide) (by decide) (by decide)
    (fun hesc => absurd hesc (by decide))
    (fun b hb => by injection hb with hb; subst hb; decide)

theorem C3_witness :
    parse_frame (utf8Encode "SEND\ncontent-length:3\n\n".data ++ [97, 98, 0, 0]) =
      .ok (.SEND, [("content-length".data, "3".data)], [97, 98, 0]) := by
  have h := ((C3_content_length_framing
    (utf8Encode "SEND\ncontent-length:3\n\n".data ++ [97, 98, 0, 0])
    .SEND [(utf8Encode "content-length".data, utf8Encode "3".data)]
    [97, 98, 0, 0] [("content-length".data, "3".data)] "3".data 3
    (by decide) (by decide) (by decide) (by decide)).2 (by decide)).1 (by decide)
  rw [h]
  decide

theorem C4_witness :
    parse_frame (utf8Encode "SEND\n\n".data ++ [104, 105, 0, 10]) =
      .ok (.SEND, [], [104, 105]) := by
  have h := ((C4_sentinel_framing
    (utf8Encode "SEND\n\n".data ++ [104, 105, 0, 10])
    .SEND [] [104, 105, 0, 10] []
    (by decide) (by decide) (by decide)).1 [104, 105] [10] (by decide) (by decide)).1
  exact h

theorem C5_witness :
    lookupHeader [(['h'], "foobar".data)] ['h'] = some "foobar".data := by
  have h := C5_first_occurrence_wins .ERROR
    [(utf8Encode ['h'], utf8Encode "foobar".data),
     (utf8Encode ['h'], utf8Encode "old1".data),
     (utf8Encode ['h'], utf8Encode "old2".data)]
    [(['h'], "foobar".data), (['h'], "old1".data), (['h'], "old2".data)]
    [(['h'], "foobar".data)]
    (by decide) (by decide) ['h']
  rw [h]
  decide

theorem C6_witness :
    StompFrame.new .ACK [] [98, 111, 100, 121] =
      .error (.SyntaxError (utf8Encode
        ("frame type " ++ commandName .ACK ++ " must not have a body").data)) :=
  (C6_construction_gate .ACK [] [98, 111, 100, 121]).2.1 (by decide) (by decide)

theorem C7_witness :
    (tagBytes (cmdToken .SEND) (cmdToken .SEND)).isSome = true ∧
    (StompCommand.SEND = StompCommand.SEND ∨
      (StompCommand.SEND = .CONNECT ∧ StompCommand.SEND = .CONNECTED)) ∧
    commandParse (cmdToken .CONNECT ++ 10 :: [0]) = .ok (.CONNECT, 10 :: [0]) :=
  ⟨by decide, C7_token_resolution.1 .SEND .SEND (by decide),
    C7_token_resolution.2 .CONNECT [0]⟩

theorem C8_witness :
    unescape_header ['a', '\\', 't'] .SEND =
      .error (.SyntaxError (utf8Encode ['a', '\\', 't'])) :=
  (C8_malformed_escape .SEND (by decide) (by decide)).1 ['a', '\\', 't'] (by decide)

theorem C9_witness :
    parse_frame (utf8Encode "SEND\ncontent-length:x\n\n".data ++ [0]) =
      .error (.HeaderError CONTENT_LENGTH ['x']) :=
  C9_content_length_error
    (utf8Encode "SEND\ncontent-length:x\n\n".data ++ [0])
    .SEND [(utf8Encode "content-length".data, utf8Encode "x".data)]
    [0] [("content-length".data, "x".data)] ['x']
    (by decide) (by decide) (by decide) (by decide)

theorem C10_witness :
    try_from ((utf8Encode "SEND\n\n".data ++ [104, 105, 0]) ++ [120, 121, 122]) =
      .ok { cmd := .SEND, headers := [], body := some [104, 105] } :=
  C10_trailing_bytes_ignored (utf8Encode "SEND\n\n".data ++ [104, 105, 0])
    { cmd := .SEND, headers := [], body := some [104, 105] }
    (by decide) [120, 121, 122]

end Claims
